import Mathlib

/-!
Verification of the collection metadata exporter core
(`src/frontifyService.ts`): metadata value normalization, per-asset row
preparation, union column schema, CSV serialization with RFC-4180 escaping,
and filename derivation.  JavaScript objects with string keys are embedded
as insertion-ordered association lists, JavaScript strings as Lean
`String`, and the polymorphic `unknown` metadata values as a tagged union.
-/

set_option autoImplicit false

namespace CollectionExporter

/-- A raw custom-metadata value as it reaches `extractMetadataValue`
(`unknown` in the source): `vnull` stands for JavaScript `null` or
`undefined`; `vstr` a plain string; `vobj text stringRepr` an object, with
`text = some t` exactly when the object has a `text` property holding the
string `t`, and `stringRepr` the result of JavaScript `String(value)` on
that object; `vother stringRepr` any other non-object value (number, ...)
with its `String(value)` coercion. -/
inductive RawValue where
  | vnull : RawValue
  | vstr : String → RawValue
  | vobj : Option String → String → RawValue
  | vother : String → RawValue
deriving DecidableEq, Repr

/-- Embedding of `extractMetadataValue` (frontifyService.ts:249-266):
null/undefined give the empty string, plain strings are returned
unchanged, an object with a `text` property returns that property, and
everything else falls back to its `String(...)` coercion. -/
def extractMetadataValue : RawValue → String
  | .vnull => ""
  | .vstr s => s
  | .vobj (some t) _ => t
  | .vobj none r => r
  | .vother r => r

/-- Embedding of an entry of `asset.customMetadata`
(`CustomMetadataItem` in types.ts): `propertyName` is
`metadata.property?.name` (`none` when the property descriptor is absent),
`value` is the singular value (`none` when `null` or `undefined`), and
`values` the plural list (`none` when absent). -/
structure CustomMetadataItem where
  propertyName : Option String
  value : Option RawValue
  values : Option (List RawValue)
deriving DecidableEq, Repr

/-- Embedding of the `copyright` sub-object of an asset (types.ts). -/
structure Copyright where
  status : String
  notice : String
deriving DecidableEq, Repr

/-- Embedding of a tag (types.ts): only `value` is read by the exporter. -/
structure Tag where
  value : String
  source : String
deriving DecidableEq, Repr

/-- Embedding of a license (types.ts): only `title` is read. -/
structure License where
  id : String
  title : String
deriving DecidableEq, Repr

/-- Embedding of `FrontifyAsset` (types.ts:43-59): all optional fields are
`Option`s, `none` standing for an absent / undefined field. -/
structure FrontifyAsset where
  id : String
  title : Option String := none
  description : Option String := none
  status : Option String := none
  createdAt : Option String := none
  modifiedAt : Option String := none
  expiresAt : Option String := none
  copyright : Option Copyright := none
  customMetadata : Option (List CustomMetadataItem) := none
  tags : Option (List Tag) := none
  licenses : Option (List License) := none
  previewUrl : Option String := none
  downloadUrl : Option String := none
  alternativeText : Option String := none
  duration : Option String := none
deriving DecidableEq, Repr

/-- `Array.prototype.join(sep)` on a list of strings. -/
def joinSep (sep : String) : List String → String
  | [] => ""
  | [x] => x
  | x :: y :: ys => x ++ sep ++ joinSep sep (y :: ys)

/-- A JavaScript object with string keys and string values, embedded as an
association list in property-creation order: assigning to an existing key
updates it in place, assigning to a fresh key appends it at the end.  This
is the storage only; the enumeration order of `Object.keys` is modelled
separately by `objectKeys`, because ECMAScript does not enumerate
array-index-like keys in creation order. -/
def setKey (row : List (String × String)) (k v : String) : List (String × String) :=
  if row.any (fun p => p.1 = k) then
    row.map (fun p => if p.1 = k then (p.1, v) else p)
  else
    row ++ [(k, v)]

/-- Property read `row[k]` on the embedded object: the value at key `k`. -/
def getKey (row : List (String × String)) (k : String) : Option String :=
  (row.find? (fun p => p.1 = k)).map Prod.snd

/-- The fixed part of `exportData` built by `prepareAssetsForExport`
(frontifyService.ts:270-296): the fifteen base columns in source order,
each defaulted to the empty string when the source field is absent, with
tags and license titles joined by a comma and a space. -/
def baseRow (asset : FrontifyAsset) : List (String × String) :=
  [("id", asset.id),
   ("title", asset.title.getD ""),
   ("description", asset.description.getD ""),
   ("status", asset.status.getD ""),
   ("createdAt", asset.createdAt.getD ""),
   ("modifiedAt", asset.modifiedAt.getD ""),
   ("expiresAt", asset.expiresAt.getD ""),
   ("copyrightStatus", (asset.copyright.map Copyright.status).getD ""),
   ("copyrightNotice", (asset.copyright.map Copyright.notice).getD ""),
   ("previewUrl", asset.previewUrl.getD ""),
   ("downloadUrl", asset.downloadUrl.getD ""),
   ("alternativeText", asset.alternativeText.getD ""),
   ("duration", asset.duration.getD ""),
   ("tags", joinSep ", " ((asset.tags.getD []).map Tag.value)),
   ("licenses", joinSep ", " ((asset.licenses.getD []).map License.title))]

/-- The names of the fifteen base columns, in source order. -/
def baseColumnNames : List String :=
  ["id", "title", "description", "status", "createdAt", "modifiedAt",
   "expiresAt", "copyrightStatus", "copyrightNotice", "previewUrl",
   "downloadUrl", "alternativeText", "duration", "tags", "licenses"]

/-- The `metadataValue` computed for one custom-metadata entry
(frontifyService.ts:304-315): the singular value resolved when present,
else a non-empty plural list resolved and joined with a semicolon and a
space, else the empty string. -/
def metadataFieldValue (m : CustomMetadataItem) : String :=
  match m.value with
  | some v => extractMetadataValue v
  | none =>
    match m.values with
    | some (v :: vs) => joinSep "; " ((v :: vs).map extractMetadataValue)
    | _ => ""

/-- One iteration of the `forEach` over `asset.customMetadata`
(frontifyService.ts:300-319): entries with an absent or empty (falsy)
property name are skipped, otherwise `exportData[fieldName]` is assigned. -/
def applyMetadataItem (row : List (String × String)) (m : CustomMetadataItem) :
    List (String × String) :=
  match m.propertyName with
  | none => row
  | some name => if name = "" then row else setKey row name (metadataFieldValue m)

/-- The full `exportData` object for one asset: the base columns, then the
custom-metadata entries applied in source order. -/
def buildRow (asset : FrontifyAsset) : List (String × String) :=
  (asset.customMetadata.getD []).foldl applyMetadataItem (baseRow asset)

/-- Embedding of `prepareAssetsForExport` (frontifyService.ts:268-324). -/
def prepareAssetsForExport (assets : List FrontifyAsset) :
    List (List (String × String)) :=
  assets.map buildRow

/-- The numeric value of a string of decimal digits. -/
def digitsToNat (l : List Char) : Nat :=
  l.foldl (fun n c => n * 10 + (c.toNat - 48)) 0

/-- Whether a string is an ECMAScript array-index key: the canonical
decimal numeral (non-empty, all digits, no leading zero except `0`
itself) of an integer strictly below `2 ^ 32 - 1`. -/
def isArrayIndexKey (s : String) : Bool :=
  match s.toList with
  | [] => false
  | c :: cs =>
    (c :: cs).all Char.isDigit && (c ≠ '0' || cs.isEmpty)
      && decide (digitsToNat (c :: cs) < 4294967295)

/-- The numeric value of an array-index key, used for the enumeration
order. -/
def arrayIndexValue (s : String) : Nat :=
  digitsToNat s.toList

/-- Insert a key into a list sorted by ascending array-index value. -/
def insertSortedKey (k : String) : List String → List String
  | [] => [k]
  | x :: xs =>
    if arrayIndexValue k ≤ arrayIndexValue x then k :: x :: xs
    else x :: insertSortedKey k xs

/-- Sort keys by ascending array-index value (insertion sort). -/
def sortIndexKeys : List String → List String
  | [] => []
  | x :: xs => insertSortedKey x (sortIndexKeys xs)

/-- The `Object.keys` enumeration order of the embedded object, per
ECMAScript `[[OwnPropertyKeys]]`: the array-index-like keys first, in
ascending numeric order, then the remaining keys in property-creation
order. -/
def objectKeys (row : List (String × String)) : List String :=
  let keys := row.map Prod.fst
  sortIndexKeys (keys.filter (fun k => isArrayIndexKey k))
    ++ keys.filter (fun k => !isArrayIndexKey k)

/-- One step of the header `Set` construction: add each key of one row,
skipping keys already present (ordered-set insertion). -/
def addKeys (acc : List String) (keys : List String) : List String :=
  keys.foldl (fun a k => if a.contains k then a else a ++ [k]) acc

/-- Embedding of the header computation of `exportToCSV`
(frontifyService.ts:333-339): an insertion-ordered set accumulating the
keys of every row, rows in order, each row's keys in the `Object.keys`
enumeration order. -/
def buildHeaders (rows : List (List (String × String))) : List String :=
  rows.foldl (fun acc row => addKeys acc (objectKeys row)) []

/-- `value.replace(/"/g, reg)` step of the escaper: every double-quote
character doubled, all other characters kept. -/
def doubledChars : List Char → List Char
  | [] => []
  | c :: rest => if c = '"' then '"' :: '"' :: doubledChars rest else c :: doubledChars rest

/-- String form of `doubledChars`. -/
def doubleQuotes (value : String) : String :=
  String.mk (doubledChars value.toList)

/-- Embedding of `escapeCSVValue` (frontifyService.ts:370-375): wrap in
double quotes, doubling internal quotes, exactly when the value contains a
comma, a double quote or a newline. -/
def escapeCSVValue (value : String) : String :=
  if value.toList.contains ',' || value.toList.contains '"' || value.toList.contains '\n' then
    "\"" ++ doubleQuotes value ++ "\""
  else value

/-- One data line of the CSV (frontifyService.ts:348-354): for each header,
the row's value at that key (empty string when the row lacks the key),
escaped, cells joined by commas. -/
def csvLine (headers : List String) (row : List (String × String)) : String :=
  joinSep "," (headers.map (fun h => escapeCSVValue ((getKey row h).getD "")))

/-- The CSV text of `exportToCSV` (frontifyService.ts:342-356): the escaped
header line followed by one data line per row, joined by newlines. -/
def csvContent (rows : List (List (String × String))) : String :=
  joinSep "\n"
    (joinSep "," ((buildHeaders rows).map escapeCSVValue)
      :: rows.map (csvLine (buildHeaders rows)))

/-- Whether a character survives `/[^a-z0-9]/gi` (ASCII letter of either
case, or ASCII digit). -/
def isAsciiAlnum (c : Char) : Bool :=
  c.isLower || c.isUpper || c.isDigit

/-- `.replace(/[^a-z0-9]/gi, us)` step of `sanitizeFilename`: every
non-alphanumeric character becomes an underscore. -/
def replaceNonAlnum (l : List Char) : List Char :=
  l.map (fun c => if isAsciiAlnum c then c else '_')

/-- `.replace(/_+/g, us)` step of `sanitizeFilename`: each maximal run of
underscores collapses to a single underscore.  The boolean records whether
the previously emitted character was an underscore of a still-open run. -/
def collapseAux : Bool → List Char → List Char
  | _, [] => []
  | prevU, c :: rest =>
    if c = '_' then
      if prevU then collapseAux true rest else '_' :: collapseAux true rest
    else c :: collapseAux false rest

/-- Embedding of `sanitizeFilename` (frontifyService.ts:377-382): replace
non-alphanumeric characters by underscores, collapse underscore runs, then
lowercase. -/
def sanitizeFilename (name : String) : String :=
  String.mk ((collapseAux false (replaceNonAlnum name.toList)).map Char.toLower)

/-- The download filename assembled at frontifyService.ts:363. -/
def deriveFilename (label : String) : String :=
  sanitizeFilename label ++ "_assets.csv"

/-- Embedding of `exportToCSV` (frontifyService.ts:326-368): prepare the
rows, fail when there are none, otherwise return the CSV text together
with the derived filename. -/
def exportToCSV (assets : List FrontifyAsset) (collectionName : String) :
    Except String (String × String) :=
  let exportData := prepareAssetsForExport assets
  if exportData.length = 0 then
    Except.error "No assets to export"
  else
    Except.ok (csvContent exportData, deriveFilename collectionName)

/-! ### A quote-aware RFC-4180 reader, used to state the round-trip claim.

The reader splits records on unquoted newlines and cells on unquoted
commas, and un-doubles quotes inside quoted cells.  It is written with
explicit fuel (one unit per cell) so that it reduces inside the kernel. -/

/-- Read the body of a quoted cell after its opening quote: a doubled
quote contributes one quote character, a lone quote closes the cell.
Unterminated input is read leniently to the end. -/
def parseQuotedAux (acc : List Char) : List Char → List Char × List Char
  | [] => (acc, [])
  | '"' :: '"' :: rest => parseQuotedAux (acc ++ ['"']) rest
  | '"' :: rest => (acc, rest)
  | c :: rest => parseQuotedAux (acc ++ [c]) rest

/-- Read an unquoted cell: everything up to the next comma or newline. -/
def parseBareAux (acc : List Char) : List Char → List Char × List Char
  | [] => (acc, [])
  | c :: rest =>
    if c = ',' || c = '\n' then (acc, c :: rest)
    else parseBareAux (acc ++ [c]) rest

/-- Read one cell: quoted when the input starts with a double quote,
bare otherwise.  Returns the cell characters and the rest of the input,
which starts at the delimiter that ended the cell. -/
def parseCell : List Char → List Char × List Char
  | [] => ([], [])
  | c :: rest =>
    if c = '"' then parseQuotedAux [] rest else parseBareAux [] (c :: rest)

/-- Read a whole CSV text into its records of cells.  Consumes one unit of
fuel per cell; with fuel at least the number of cells the result is exact. -/
def parseRecords : Nat → List Char → List (List String)
  | 0, _ => []
  | fuel + 1, input =>
    match parseCell input with
    | (cell, ',' :: rest) =>
      match parseRecords fuel rest with
      | [] => [[String.mk cell]]
      | r :: rs => (String.mk cell :: r) :: rs
    | (cell, '\n' :: rest) => [String.mk cell] :: parseRecords fuel rest
    | (cell, _) => [[String.mk cell]]

/-- The reader on strings, with enough fuel for any input: a text of
length `n` has at most `n + 1` cells. -/
def parseCSV (s : String) : List (List String) :=
  parseRecords (s.toList.length + 1) s.toList

/-! ### Definitions following the specification's words, for comparison
with the source embedding. -/

/-- Modelled from the claim wording for `MetadataValueResolver.resolve`:
a structured object returns its `text` property only when that text is
non-empty; every other shape falls back to the string coercion. -/
def resolveSpecC5 : RawValue → String
  | .vnull => ""
  | .vstr s => s
  | .vobj (some t) r => if t = "" then r else t
  | .vobj none r => r
  | .vother r => r

/-- Modelled from the claim wording for the column schema: scan the given
key lists in order and append each key not already seen. -/
def filterNew (seen : List String) : List String → List String
  | [] => []
  | k :: ks =>
    if seen.contains k then filterNew seen ks
    else k :: filterNew (seen ++ [k]) ks

/-- The union of the key lists in first-seen order, per the claim. -/
def firstSeenUnion (keyLists : List (List String)) : List String :=
  filterNew [] keyLists.flatten

/-- Modelled from the claim wording for `deriveFilename`: replace every
character that is not an ASCII letter or digit by an underscore, collapse
underscore runs, lowercase, and append the suffix. -/
def filenameSpecC8 (label : String) : String :=
  String.mk ((collapseAux false
      (label.toList.map (fun c => if c.isAlpha || c.isDigit then c else '_'))).map
    Char.toLower) ++ "_assets.csv"

/-- One emitted CSV record: the escaped cells joined by commas. -/
def printRecord (cells : List String) : String :=
  joinSep "," (cells.map escapeCSVValue)

/-- A full emitted CSV text: records joined by newlines. -/
def printAll (records : List (List String)) : String :=
  joinSep "\n" (records.map printRecord)

/-- Total number of cells of a record list (the fuel the reader needs). -/
def cellCount (records : List (List String)) : Nat :=
  (records.map List.length).sum

/-! ### Concrete assets used as counterexamples and witnesses. -/

/-- An asset carrying one custom-metadata entry whose property name is the
array-index-like string `2023`. -/
def cexAsset4 : FrontifyAsset :=
  { id := "a1",
    customMetadata := some
      [{ propertyName := some "2023", value := some (RawValue.vstr "Y"), values := none }] }

/-- An asset carrying one custom-metadata entry whose property name is
present but empty, with a present singular value. -/
def cexAsset6 : FrontifyAsset :=
  { id := "c6",
    customMetadata := some
      [{ propertyName := some "", value := some (RawValue.vstr "X"), values := none }] }

/-- An asset carrying one `Material` entry with a two-element value list. -/
def witnessAsset6 : FrontifyAsset :=
  { id := "w6",
    customMetadata := some
      [{ propertyName := some "Material", value := none,
         values := some [RawValue.vstr "Cotton", RawValue.vstr "Silk"] }] }

/-- An asset with a title and a custom-metadata entry named `title`. -/
def cexAsset10 : FrontifyAsset :=
  { id := "c10", title := some "T",
    customMetadata := some
      [{ propertyName := some "title", value := some (RawValue.vstr "X"), values := none }] }

/-- An asset with a title and one unrelated `Material` entry. -/
def witnessAsset10 : FrontifyAsset :=
  { id := "w10", title := some "Hello",
    customMetadata := some
      [{ propertyName := some "Material", value := some (RawValue.vstr "Steel"),
         values := none }] }

/-! ### Basic facts about the string embedding. -/

theorem toList_mk (l : List Char) : (String.mk l).toList = l := rfl

theorem mk_toList (s : String) : String.mk s.toList = s := rfl

theorem toList_append (a b : String) : (a ++ b).toList = a.toList ++ b.toList := rfl

theorem eq_empty_of_toList_nil (s : String) (h : s.toList = []) : s = "" := by
  have := congrArg String.mk h
  simpa [mk_toList] using this

@[simp]
theorem joinSep_nil (sep : String) : joinSep sep [] = "" := rfl

@[simp]
theorem joinSep_singleton (sep : String) (x : String) : joinSep sep [x] = x := rfl

@[simp]
theorem joinSep_cons_cons (sep x y : String) (ys : List String) :
    joinSep sep (x :: y :: ys) = x ++ sep ++ joinSep sep (y :: ys) := rfl

/-! ### Claims about the escaping rule and serialization shape. -/

/-- Claim C1: every value passed through the escaping step of the
serializer is wrapped in double quotes with internal quotes doubled
exactly when it contains a comma, a double quote or a newline, and
otherwise emitted unchanged; the cell `Acme, Inc. "Premium"` is emitted
as `"Acme, Inc. ""Premium"""`; and the rule is applied to header cells
exactly as to data cells. -/
theorem spec_C1 :
    (∀ v : String,
        escapeCSVValue v =
          if v.toList.contains ',' || v.toList.contains '"' || v.toList.contains '\n' then
            "\"" ++ doubleQuotes v ++ "\""
          else v) ∧
    escapeCSVValue "Acme, Inc. \"Premium\"" = "\"Acme, Inc. \"\"Premium\"\"\"" ∧
    (∀ rows, csvContent rows =
        joinSep "\n" (joinSep "," ((buildHeaders rows).map escapeCSVValue)
          :: rows.map (csvLine (buildHeaders rows)))) ∧
    (∀ headers row, csvLine headers row =
        joinSep "," (headers.map (fun h => escapeCSVValue ((getKey row h).getD "")))) :=
  ⟨fun _ => rfl, by decide, fun _ => rfl, fun _ _ => rfl⟩

/-- Claim C2: serializing an empty row set fails with the no-data error and
produces no CSV output at all, and this is the only failure of the export
path: on any non-empty asset list the export succeeds. -/
theorem spec_C2 :
    (∀ name, exportToCSV [] name = Except.error "No assets to export") ∧
    (∀ a as name, ∃ out, exportToCSV (a :: as) name = Except.ok out) := by
  refine ⟨fun name => rfl, fun a as name =>
    ⟨(csvContent (prepareAssetsForExport (a :: as)), deriveFilename name), ?_⟩⟩
  simp [exportToCSV, prepareAssetsForExport]

/-! ### Claims about the metadata value resolver. -/

/-- Claim C5 counterexample: on the structured object with an empty `text`
property the resolver returns the empty text, not the object's string
coercion demanded by the claim's fallback clause for values without a
non-empty `text`. -/
theorem spec_C5_cex :
    extractMetadataValue (RawValue.vobj (some "") "[object Object]") ≠
      resolveSpecC5 (RawValue.vobj (some "") "[object Object]") := by
  decide

/-- Claim C5 (amended): null or undefined values resolve to the empty
string, plain strings are returned unchanged, an object with a `text`
property returns that text — whether empty or not — and every other shape
resolves to its string coercion; the resolver is a total function into
strings. -/
theorem spec_C5_amended :
    extractMetadataValue RawValue.vnull = "" ∧
    (∀ s, extractMetadataValue (RawValue.vstr s) = s) ∧
    (∀ t r, extractMetadataValue (RawValue.vobj (some t) r) = t) ∧
    (∀ r, extractMetadataValue (RawValue.vobj none r) = r) ∧
    (∀ r, extractMetadataValue (RawValue.vother r) = r) :=
  ⟨rfl, fun _ => rfl, fun _ _ => rfl, fun _ => rfl, fun _ => rfl⟩

/-! ### Claims about the filename derivation. -/

theorem isAsciiAlnum_eq (c : Char) : isAsciiAlnum c = (c.isAlpha || c.isDigit) := by
  simp [isAsciiAlnum, Char.isAlpha, Bool.or_comm, Bool.or_left_comm, Bool.or_assoc]

/-- Claim C8: the derived filename is the label with every non-alphanumeric
character replaced by an underscore, underscore runs collapsed, the result
lowercased and the suffix appended; concretely the label
`Q4 Partner Assets!` yields `q4_partner_assets__assets.csv`. -/
theorem spec_C8 :
    (∀ label, deriveFilename label = filenameSpecC8 label) ∧
    deriveFilename "Q4 Partner Assets!" = "q4_partner_assets__assets.csv" := by
  constructor
  · intro label
    simp only [deriveFilename, filenameSpecC8, sanitizeFilename, replaceNonAlnum,
      isAsciiAlnum_eq]
  · decide

theorem collapseAux_true_all_underscore (l : List Char) (h : ∀ c ∈ l, c = '_') :
    collapseAux true l = [] := by
  induction l with
  | nil => rfl
  | cons c cs ih =>
    have hc : c = '_' := h c (List.mem_cons_self c cs)
    simp only [collapseAux, hc, if_pos rfl, if_pos]
    exact ih fun d hd => h d (List.mem_cons_of_mem c hd)

theorem collapseAux_false_all_underscore (l : List Char) (hne : l ≠ [])
    (h : ∀ c ∈ l, c = '_') : collapseAux false l = ['_'] := by
  cases l with
  | nil => exact absurd rfl hne
  | cons c cs =>
    have hc : c = '_' := h c (List.mem_cons_self c cs)
    subst hc
    have hstep : collapseAux false ('_' :: cs) = '_' :: collapseAux true cs := by
      simp [collapseAux]
    rw [hstep, collapseAux_true_all_underscore cs fun d hd => h d (List.mem_cons_of_mem _ hd)]

/-- Claim C9 counterexample: the all-punctuation label `!` does not yield
the filename `_assets.csv`. -/
theorem spec_C9_cex : deriveFilename "!" ≠ "_assets.csv" := by decide

/-- Claim C9 (amended): a non-empty label consisting entirely of
non-alphanumeric characters collapses to a single underscore, so the
derived filename is that underscore followed by the `_assets.csv` suffix:
`__assets.csv`. -/
theorem spec_C9_amended (label : String) (hne : label ≠ "")
    (h : ∀ c ∈ label.toList, isAsciiAlnum c = false) :
    deriveFilename label = "__assets.csv" := by
  have hlist : label.toList ≠ [] := fun hl => hne (eq_empty_of_toList_nil label hl)
  have hall : ∀ c ∈ replaceNonAlnum label.toList, c = '_' := by
    intro c hc
    simp only [replaceNonAlnum, List.mem_map] at hc
    obtain ⟨a, ha, rfl⟩ := hc
    simp [h a ha]
  have hrep : replaceNonAlnum label.toList ≠ [] := by
    simp only [replaceNonAlnum, ne_eq, List.map_eq_nil_iff]
    exact hlist
  unfold deriveFilename sanitizeFilename
  rw [collapseAux_false_all_underscore _ hrep hall]
  decide

/-- Claim C9 witness: the concrete all-punctuation label `!?`. -/
theorem spec_C9_witness : deriveFilename "!?" = "__assets.csv" :=
  spec_C9_amended "!?" (by decide) (by decide)

/-- Claim C7: on a non-empty asset list the serializer's output is exactly
one header line followed by one data line per row in row order, joined by
single newlines with no trailing newline: `rows.length + 1` lines. -/
theorem spec_C7 (a : FrontifyAsset) (as : List FrontifyAsset) (name : String) :
    ∃ L : List String,
      (exportToCSV (a :: as) name).map Prod.fst = Except.ok (joinSep "\n" L) ∧
      L.length = (prepareAssetsForExport (a :: as)).length + 1 ∧
      L = joinSep "," ((buildHeaders (prepareAssetsForExport (a :: as))).map escapeCSVValue)
          :: (prepareAssetsForExport (a :: as)).map
              (csvLine (buildHeaders (prepareAssetsForExport (a :: as)))) := by
  refine ⟨_, ?_, ?_, rfl⟩
  · simp [exportToCSV, prepareAssetsForExport, csvContent, Except.map]
  · simp [prepareAssetsForExport]

/-! ### The union column schema (claim C4). -/

theorem filterNew_nil (seen : List String) : filterNew seen [] = [] := rfl

theorem filterNew_cons_mem (seen : List String) (k : String) (ks : List String)
    (h : k ∈ seen) : filterNew seen (k :: ks) = filterNew seen ks := by
  simp only [filterNew]
  rw [if_pos (List.elem_iff.mpr h)]

theorem filterNew_cons_not_mem (seen : List String) (k : String) (ks : List String)
    (h : k ∉ seen) : filterNew seen (k :: ks) = k :: filterNew (seen ++ [k]) ks := by
  simp only [filterNew]
  rw [if_neg (fun hc => h (List.elem_iff.mp hc))]

theorem addKeys_eq (ks : List String) : ∀ acc, addKeys acc ks = acc ++ filterNew acc ks := by
  induction ks with
  | nil => intro acc; simp [addKeys, filterNew_nil]
  | cons k ks ih =>
    intro acc
    show (k :: ks).foldl _ acc = _
    rw [List.foldl_cons]
    by_cases hk : k ∈ acc
    · rw [if_pos (List.elem_iff.mpr hk), show ks.foldl _ acc = addKeys acc ks from rfl,
        ih acc, filterNew_cons_mem _ _ _ hk]
    · rw [if_neg (fun hc => hk (List.elem_iff.mp hc)),
        show ks.foldl _ (acc ++ [k]) = addKeys (acc ++ [k]) ks from rfl,
        ih (acc ++ [k]), filterNew_cons_not_mem _ _ _ hk]
      simp [List.append_assoc]

theorem filterNew_append (xs : List String) : ∀ (ys seen : List String),
    filterNew seen (xs ++ ys) =
      filterNew seen xs ++ filterNew (seen ++ filterNew seen xs) ys := by
  induction xs with
  | nil => intro ys seen; simp [filterNew_nil]
  | cons k xs ih =>
    intro ys seen
    rw [List.cons_append]
    by_cases hk : k ∈ seen
    · rw [filterNew_cons_mem _ _ _ hk, filterNew_cons_mem _ _ _ hk, ih ys seen]
    · rw [filterNew_cons_not_mem _ _ _ hk, filterNew_cons_not_mem _ _ _ hk,
        ih ys (seen ++ [k])]
      simp [List.append_assoc]

theorem foldl_addKeys (kss : List (List String)) : ∀ acc,
    kss.foldl addKeys acc = acc ++ filterNew acc kss.flatten := by
  induction kss with
  | nil => intro acc; simp [filterNew_nil]
  | cons ks kss ih =>
    intro acc
    rw [List.foldl_cons, ih (addKeys acc ks), addKeys_eq ks acc, List.flatten_cons,
      filterNew_append]
    simp [List.append_assoc]

theorem buildHeaders_eq_union_objectKeys (rows : List (List (String × String))) :
    buildHeaders rows = firstSeenUnion (rows.map objectKeys) := by
  have hmap : (rows.map objectKeys).foldl addKeys [] =
      rows.foldl (fun acc row => addKeys acc (objectKeys row)) [] :=
    List.foldl_map _ _ _ _
  unfold buildHeaders firstSeenUnion
  rw [← hmap, foldl_addKeys]
  simp

theorem length_filter_partition (p : String → Bool) : ∀ l : List String,
    (l.filter p).length + (l.filter (fun x => !p x)).length = l.length := by
  intro l
  induction l with
  | nil => rfl
  | cons x xs ih =>
    cases hx : p x with
    | true =>
      rw [List.filter_cons_of_pos hx, List.filter_cons_of_neg (by simp [hx])]
      simp only [List.length_cons]
      omega
    | false =>
      rw [List.filter_cons_of_neg (by simp [hx]), List.filter_cons_of_pos (by simp [hx])]
      simp only [List.length_cons]
      omega

theorem length_insertSortedKey (k : String) : ∀ l,
    (insertSortedKey k l).length = l.length + 1 := by
  intro l
  induction l with
  | nil => rfl
  | cons x xs ih =>
    by_cases h : arrayIndexValue k ≤ arrayIndexValue x
    · simp [insertSortedKey, h]
    · simp [insertSortedKey, h, ih]

theorem length_sortIndexKeys : ∀ l, (sortIndexKeys l).length = l.length := by
  intro l
  induction l with
  | nil => rfl
  | cons x xs ih => simp [sortIndexKeys, length_insertSortedKey, ih]

theorem objectKeys_length (row : List (String × String)) :
    (objectKeys row).length = row.length := by
  unfold objectKeys
  rw [List.length_append, length_sortIndexKeys,
    length_filter_partition (fun k => isArrayIndexKey k) (row.map Prod.fst),
    List.length_map]

theorem mem_insertSortedKey (x k : String) : ∀ l,
    x ∈ insertSortedKey k l ↔ x = k ∨ x ∈ l := by
  intro l
  induction l with
  | nil => simp [insertSortedKey]
  | cons y ys ih =>
    by_cases h : arrayIndexValue k ≤ arrayIndexValue y
    · simp [insertSortedKey, h, List.mem_cons]
    · simp only [insertSortedKey, h, if_false, List.mem_cons, ih]
      tauto

theorem mem_sortIndexKeys (x : String) : ∀ l, x ∈ sortIndexKeys l ↔ x ∈ l := by
  intro l
  induction l with
  | nil => simp [sortIndexKeys]
  | cons y ys ih => simp [sortIndexKeys, mem_insertSortedKey, ih, List.mem_cons]

theorem mem_objectKeys (x : String) (row : List (String × String)) :
    x ∈ objectKeys row ↔ x ∈ row.map Prod.fst := by
  unfold objectKeys
  simp only [List.mem_append, mem_sortIndexKeys, List.mem_filter]
  constructor
  · rintro (⟨hm, _⟩ | ⟨hm, _⟩) <;> exact hm
  · intro hm
    cases hpx : isArrayIndexKey x with
    | false => exact Or.inr ⟨hm, rfl⟩
    | true => exact Or.inl ⟨hm, rfl⟩

theorem pairwise_insertSortedKey (k : String) : ∀ l,
    List.Pairwise (fun a b => arrayIndexValue a ≤ arrayIndexValue b) l →
    List.Pairwise (fun a b => arrayIndexValue a ≤ arrayIndexValue b)
      (insertSortedKey k l) := by
  intro l
  induction l with
  | nil =>
    intro _
    simp [insertSortedKey]
  | cons x xs ih =>
    intro h
    rw [List.pairwise_cons] at h
    obtain ⟨hx, hxs⟩ := h
    by_cases hk : arrayIndexValue k ≤ arrayIndexValue x
    · rw [show insertSortedKey k (x :: xs) = k :: x :: xs from by simp [insertSortedKey, hk]]
      rw [List.pairwise_cons]
      refine ⟨?_, by rw [List.pairwise_cons]; exact ⟨hx, hxs⟩⟩
      intro y hy
      rcases List.mem_cons.mp hy with rfl | hy2
      · exact hk
      · exact Nat.le_trans hk (hx y hy2)
    · rw [show insertSortedKey k (x :: xs) = x :: insertSortedKey k xs from by
        simp [insertSortedKey, hk]]
      rw [List.pairwise_cons]
      refine ⟨?_, ih hxs⟩
      intro y hy
      rcases (mem_insertSortedKey y k xs).mp hy with rfl | hy2
      · exact (not_le.mp hk).le
      · exact hx y hy2

theorem pairwise_sortIndexKeys : ∀ l,
    List.Pairwise (fun a b => arrayIndexValue a ≤ arrayIndexValue b) (sortIndexKeys l) := by
  intro l
  induction l with
  | nil => simp [sortIndexKeys]
  | cons x xs ih => exact pairwise_insertSortedKey x (sortIndexKeys xs) ih

theorem nodup_append_filterNew (ks : List String) : ∀ seen, seen.Nodup →
    (seen ++ filterNew seen ks).Nodup := by
  induction ks with
  | nil => intro seen h; simpa [filterNew_nil] using h
  | cons k ks ih =>
    intro seen h
    by_cases hk : k ∈ seen
    · rw [filterNew_cons_mem _ _ _ hk]
      exact ih seen h
    · rw [filterNew_cons_not_mem _ _ _ hk, List.append_cons]
      apply ih (seen ++ [k])
      simp [List.nodup_append, h, hk]

theorem mem_append_filterNew (ks : List String) : ∀ (seen : List String) (x : String),
    x ∈ seen ++ filterNew seen ks ↔ x ∈ seen ∨ x ∈ ks := by
  induction ks with
  | nil => intro seen x; simp [filterNew_nil]
  | cons k ks ih =>
    intro seen x
    by_cases hk : k ∈ seen
    · rw [filterNew_cons_mem _ _ _ hk, ih seen x]
      constructor
      · rintro (h | h)
        · exact Or.inl h
        · exact Or.inr (List.mem_cons_of_mem _ h)
      · rintro (h | h)
        · exact Or.inl h
        · rcases List.mem_cons.mp h with rfl | h2
          · exact Or.inl hk
          · exact Or.inr h2
    · rw [filterNew_cons_not_mem _ _ _ hk, List.append_cons, ih (seen ++ [k]) x]
      simp only [List.mem_append, List.mem_singleton, List.mem_cons]
      tauto

/-- Claim C4 counterexample: a custom-metadata property named `2023` is an
array-index-like key, which JavaScript enumerates before the base columns,
so the header schema is not the first-seen union of the rows' keys in
per-row insertion order: the schema starts with `2023` where the claimed
insertion-order union starts with `id` and ends with `2023`. -/
theorem spec_C4_cex :
    buildHeaders (prepareAssetsForExport [cexAsset4])
      ≠ firstSeenUnion ((prepareAssetsForExport [cexAsset4]).map (fun r => r.map Prod.fst)) ∧
    (buildHeaders (prepareAssetsForExport [cexAsset4])).head? = some "2023" ∧
    (firstSeenUnion ((prepareAssetsForExport [cexAsset4]).map
        (fun r => r.map Prod.fst))).head? = some "id" :=
  ⟨by decide, by decide, by decide⟩

/-- Claim C4 (amended): the column schema is the union, in first-seen
order, of the rows' keys — rows scanned in input order, each row's keys in
that row's JavaScript enumeration order, which lists array-index-like keys
first in ascending numeric order and the remaining keys in per-row
insertion order; a key is appended only when not already present, every
column appears exactly once, and (the schema being a pure function of the
rows) it is identical across repeated runs on the same input. -/
theorem spec_C4_amended (rows : List (List (String × String))) :
    buildHeaders rows = firstSeenUnion (rows.map objectKeys) ∧
    (∀ row, objectKeys row
        = sortIndexKeys ((row.map Prod.fst).filter (fun k => isArrayIndexKey k))
          ++ (row.map Prod.fst).filter (fun k => !isArrayIndexKey k)) ∧
    (∀ row : List (String × String),
        List.Pairwise (fun a b => arrayIndexValue a ≤ arrayIndexValue b)
          (sortIndexKeys ((row.map Prod.fst).filter (fun k => isArrayIndexKey k)))) ∧
    (buildHeaders rows).Nodup ∧
    (∀ h, h ∈ buildHeaders rows ↔ ∃ r ∈ rows, h ∈ r.map Prod.fst) := by
  have heq := buildHeaders_eq_union_objectKeys rows
  refine ⟨heq, fun row => rfl, fun row => pairwise_sortIndexKeys _, ?_, ?_⟩
  · rw [heq]
    have hn := nodup_append_filterNew ((rows.map objectKeys).flatten) [] List.nodup_nil
    simpa [firstSeenUnion] using hn
  · intro h
    rw [heq]
    have hm := mem_append_filterNew ((rows.map objectKeys).flatten) [] h
    simp only [List.nil_append, List.not_mem_nil, false_or] at hm
    simp only [firstSeenUnion, hm, List.mem_flatten]
    constructor
    · rintro ⟨l, hl, hx⟩
      obtain ⟨r, hr, rfl⟩ := List.mem_map.mp hl
      exact ⟨r, hr, (mem_objectKeys h r).mp hx⟩
    · rintro ⟨r, hr, hx⟩
      exact ⟨objectKeys r, List.mem_map.mpr ⟨r, hr, rfl⟩, (mem_objectKeys h r).mpr hx⟩

/-! ### Reads and writes on the embedded row objects (claims C6 and C10). -/

theorem getKey_nil (k : String) : getKey [] k = none := rfl

theorem getKey_cons (p : String × String) (ps : List (String × String)) (k : String) :
    getKey (p :: ps) k = if p.1 = k then some p.2 else getKey ps k := by
  by_cases hp : p.1 = k
  · simp [getKey, List.find?_cons, hp]
  · simp [getKey, List.find?_cons, hp]

theorem getKey_map_update_self (k v : String) : ∀ (row : List (String × String)),
    row.any (fun p => p.1 = k) = true →
    getKey (row.map (fun p => if p.1 = k then (p.1, v) else p)) k = some v := by
  intro row
  induction row with
  | nil => intro h; simp at h
  | cons p ps ih =>
    intro h
    by_cases hp : p.1 = k
    · simp [getKey_cons, hp]
    · have hps : ps.any (fun p => p.1 = k) = true := by
        simpa [List.any_cons, hp] using h
      simpa [getKey_cons, hp] using ih hps

theorem getKey_append_single_self (k v : String) : ∀ (row : List (String × String)),
    row.any (fun p => p.1 = k) = false →
    getKey (row ++ [(k, v)]) k = some v := by
  intro row
  induction row with
  | nil => simp [getKey_cons]
  | cons p ps ih =>
    intro h
    have hp : ¬p.1 = k := by
      intro hp
      simp [List.any_cons, hp] at h
    have hps : ps.any (fun p => p.1 = k) = false := by
      simpa [List.any_cons, hp] using h
    simpa [getKey_cons, hp] using ih hps

theorem getKey_setKey_self (row : List (String × String)) (k v : String) :
    getKey (setKey row k v) k = some v := by
  unfold setKey
  by_cases hany : row.any (fun p => p.1 = k) = true
  · rw [if_pos hany]
    exact getKey_map_update_self k v row hany
  · rw [if_neg hany]
    exact getKey_append_single_self k v row (Bool.eq_false_iff.mpr hany)

theorem getKey_setKey_ne (row : List (String × String)) (k v n : String) (h : k ≠ n) :
    getKey (setKey row k v) n = getKey row n := by
  unfold setKey
  by_cases hany : row.any (fun p => p.1 = k) = true
  · rw [if_pos hany]
    clear hany
    induction row with
    | nil => rfl
    | cons p ps ih =>
      by_cases hp : p.1 = k
      · simp [getKey_cons, hp, h, ih]
      · by_cases hpn : p.1 = n
        · simp [getKey_cons, hp, hpn, Ne.symm h]
        · simp [getKey_cons, hp, hpn, ih]
  · rw [if_neg hany]
    clear hany
    induction row with
    | nil => simp [getKey_cons, getKey_nil, h]
    | cons p ps ih =>
      by_cases hpn : p.1 = n
      · simp [getKey_cons, hpn]
      · simp [getKey_cons, hpn, ih]

theorem getKey_applyMetadataItem_ne (row : List (String × String))
    (m : CustomMetadataItem) (n : String) (h : m.propertyName ≠ some n) :
    getKey (applyMetadataItem row m) n = getKey row n := by
  cases hpn : m.propertyName with
  | none => simp [applyMetadataItem, hpn]
  | some name =>
    by_cases hname : name = ""
    · simp [applyMetadataItem, hpn, hname]
    · have hne : name ≠ n := fun heq => h (by rw [hpn, heq])
      simp only [applyMetadataItem, hpn]
      rw [if_neg hname]
      exact getKey_setKey_ne row name (metadataFieldValue m) n hne

theorem getKey_foldl_applyMetadataItem (l : List CustomMetadataItem) :
    ∀ (row : List (String × String)) (n : String), n ≠ "" →
    getKey (l.foldl applyMetadataItem row) n =
      match (l.filter (fun m0 => m0.propertyName == some n)).getLast? with
      | some m => some (metadataFieldValue m)
      | none => getKey row n := by
  induction l with
  | nil => intro row n _; rfl
  | cons m ms ih =>
    intro row n hn
    rw [List.foldl_cons]
    by_cases hm : m.propertyName = some n
    · have happly : applyMetadataItem row m = setKey row n (metadataFieldValue m) := by
        simp only [applyMetadataItem, hm]
        rw [if_neg hn]
      have hfil : (m :: ms).filter (fun m0 => m0.propertyName == some n)
          = m :: ms.filter (fun m0 => m0.propertyName == some n) := by
        simp [List.filter_cons, hm]
      rw [happly, ih (setKey row n (metadataFieldValue m)) n hn, hfil]
      cases hfe : ms.filter (fun m0 => m0.propertyName == some n) with
      | nil => simp [getKey_setKey_self]
      | cons x xs =>
        rw [List.getLast?_cons_cons]
        cases hl : (x :: xs).getLast? with
        | none => simp at hl
        | some y => rfl
    · have happly : ∀ r, getKey (applyMetadataItem r m) n = getKey r n := fun r =>
        getKey_applyMetadataItem_ne r m n hm
      have hfil : (m :: ms).filter (fun m0 => m0.propertyName == some n)
          = ms.filter (fun m0 => m0.propertyName == some n) := by
        simp [List.filter_cons, hm]
      rw [ih (applyMetadataItem row m) n hn, hfil]
      cases hfe : ms.filter (fun m0 => m0.propertyName == some n) with
      | nil => simp [happly]
      | cons x xs =>
        cases hl : (x :: xs).getLast? with
        | none => simp at hl
        | some y => rfl

/-- Claim C6 counterexample: an entry whose property name is present but
empty is skipped by the row builder — no column named by the entry is
created, although the claim requires the empty-named column to be set to
the entry's resolved value. -/
theorem spec_C6_cex :
    cexAsset6.customMetadata = some
      [{ propertyName := some "", value := some (RawValue.vstr "X"), values := none }] ∧
    getKey (buildRow cexAsset6) "" = none :=
  ⟨rfl, rfl⟩

/-- Claim C6 (amended): for every custom-metadata entry with a present and
non-empty property name, the row's column of that name carries the value
of the last such entry: the singular value resolved when present, else a
non-empty plural list resolved and joined with a semicolon and a space,
else the empty string — and in every case the column key is registered on
the row. -/
theorem spec_C6_amended (asset : FrontifyAsset) (n : String) (m : CustomMetadataItem)
    (hn : n ≠ "")
    (hlast : ((asset.customMetadata.getD []).filter
        (fun m0 => m0.propertyName == some n)).getLast? = some m) :
    getKey (buildRow asset) n = some (metadataFieldValue m) ∧
    (∀ v, m.value = some v → metadataFieldValue m = extractMetadataValue v) ∧
    (∀ v vs, m.value = none → m.values = some (v :: vs) →
        metadataFieldValue m = joinSep "; " ((v :: vs).map extractMetadataValue)) ∧
    (m.value = none → (m.values = none ∨ m.values = some []) →
        metadataFieldValue m = "") := by
  refine ⟨?_, ?_, ?_, ?_⟩
  · rw [buildRow, getKey_foldl_applyMetadataItem _ _ _ hn, hlast]
  · intro v hv
    simp [metadataFieldValue, hv]
  · intro v vs hv hvs
    simp [metadataFieldValue, hv, hvs]
  · rintro hv (hvs | hvs) <;> simp [metadataFieldValue, hv, hvs]

/-- Claim C6 witness: a concrete asset with one `Material` entry carrying
the value list `Cotton`, `Silk`. -/
theorem spec_C6_witness :
    getKey (buildRow witnessAsset6) "Material" = some "Cotton; Silk" := by
  have h := spec_C6_amended witnessAsset6 "Material"
    { propertyName := some "Material", value := none,
      values := some [RawValue.vstr "Cotton", RawValue.vstr "Silk"] }
    (by decide) rfl
  rw [h.1]
  rfl

theorem getKey_foldl_applyMetadataItem_not_named (l : List CustomMetadataItem) :
    ∀ (row : List (String × String)) (c : String),
    (∀ m ∈ l, m.propertyName ≠ some c) →
    getKey (l.foldl applyMetadataItem row) c = getKey row c := by
  induction l with
  | nil => intro row c _; rfl
  | cons m ms ih =>
    intro row c h
    rw [List.foldl_cons, ih _ c (fun x hx => h x (List.mem_cons_of_mem _ hx)),
      getKey_applyMetadataItem_ne _ _ _ (h m (List.mem_cons_self _ _))]

/-- Claim C10 counterexample: a custom-metadata entry whose property name
coincides with the base column `title` overwrites that base column, so the
row's `title` no longer equals the asset's title. -/
theorem spec_C10_cex :
    cexAsset10.title.getD "" = "T" ∧
    getKey (buildRow cexAsset10) "title" = some "X" ∧
    getKey (buildRow cexAsset10) "title" ≠ some (cexAsset10.title.getD "") := by
  exact ⟨rfl, rfl, by decide⟩

/-- Claim C10 (amended): the row always starts from exactly the fifteen
base columns copied from the asset with empty-string defaults, and
processing the custom-metadata entries leaves every base column whose name
is not used by any entry unchanged; an entry whose property name coincides
with a base column name overwrites that column. -/
theorem spec_C10_amended (asset : FrontifyAsset) (c : String)
    (_hc : c ∈ baseColumnNames)
    (hno : ∀ m ∈ asset.customMetadata.getD [], m.propertyName ≠ some c) :
    (baseRow asset).map Prod.fst = baseColumnNames ∧
    getKey (buildRow asset) c = getKey (baseRow asset) c :=
  ⟨rfl, getKey_foldl_applyMetadataItem_not_named _ _ _ hno⟩

/-- Claim C10 witness: a concrete asset whose `Material` entry does not
touch the base column `title`. -/
theorem spec_C10_witness :
    getKey (buildRow witnessAsset10) "title" = some "Hello" := by
  have h := spec_C10_amended witnessAsset10 "title" (by decide)
    (by
      intro m hm
      have hme : m = ⟨some "Material", some (RawValue.vstr "Steel"), none⟩ :=
        List.mem_singleton.mp hm
      subst hme
      decide)
  rw [h.2]
  rfl

/-! ### Round-trip between the serializer and the reader (claim C3). -/

theorem parseQuotedAux_spec (l : List Char) : ∀ (acc rest : List Char),
    rest.head? ≠ some '"' →
    parseQuotedAux acc (doubledChars l ++ '"' :: rest) = (acc ++ l, rest) := by
  induction l with
  | nil =>
    intro acc rest h
    cases rest with
    | nil =>
      show parseQuotedAux acc ['"'] = (acc ++ [], [])
      simp [parseQuotedAux]
    | cons r rest' =>
      have hr : ¬r = '"' := fun hq => h (by simp [hq])
      show parseQuotedAux acc ('"' :: r :: rest') = (acc ++ [], r :: rest')
      simp [parseQuotedAux, hr]
  | cons c l ih =>
    intro acc rest h
    by_cases hc : c = '"'
    · subst hc
      rw [show doubledChars ('"' :: l) = '"' :: '"' :: doubledChars l from by
        simp [doubledChars]]
      rw [show ('"' :: '"' :: doubledChars l) ++ '"' :: rest
          = '"' :: '"' :: (doubledChars l ++ '"' :: rest) from rfl]
      rw [show parseQuotedAux acc ('"' :: '"' :: (doubledChars l ++ '"' :: rest))
          = parseQuotedAux (acc ++ ['"']) (doubledChars l ++ '"' :: rest) from by
        simp [parseQuotedAux]]
      rw [ih (acc ++ ['"']) rest h]
      simp
    · rw [show doubledChars (c :: l) = c :: doubledChars l from by simp [doubledChars, hc]]
      rw [show (c :: doubledChars l) ++ '"' :: rest
          = c :: (doubledChars l ++ '"' :: rest) from rfl]
      rw [show parseQuotedAux acc (c :: (doubledChars l ++ '"' :: rest))
          = parseQuotedAux (acc ++ [c]) (doubledChars l ++ '"' :: rest) from by
        simp [parseQuotedAux, hc]]
      rw [ih (acc ++ [c]) rest h]
      simp

theorem parseBareAux_spec (l : List Char) : ∀ (acc rest : List Char),
    (∀ c ∈ l, c ≠ ',' ∧ c ≠ '\n') →
    (rest.head? = none ∨ rest.head? = some ',' ∨ rest.head? = some '\n') →
    parseBareAux acc (l ++ rest) = (acc ++ l, rest) := by
  induction l with
  | nil =>
    intro acc rest _ hrest
    cases rest with
    | nil => simp [parseBareAux]
    | cons r rest' =>
      have hr : r = ',' ∨ r = '\n' := by
        rcases hrest with h | h | h
        · simp at h
        · simp at h
          exact Or.inl h
        · simp at h
          exact Or.inr h
      rcases hr with hr | hr <;> subst hr <;> simp [parseBareAux]
  | cons c l ih =>
    intro acc rest hl hrest
    have hc := hl c (List.mem_cons_self _ _)
    rw [List.cons_append]
    rw [show parseBareAux acc (c :: (l ++ rest)) = parseBareAux (acc ++ [c]) (l ++ rest) from by
      simp [parseBareAux, hc.1, hc.2]]
    rw [ih (acc ++ [c]) rest (fun d hd => hl d (List.mem_cons_of_mem _ hd)) hrest]
    simp

theorem parseCell_spec (s : String) (rest : List Char)
    (hrest : rest.head? = none ∨ rest.head? = some ',' ∨ rest.head? = some '\n') :
    parseCell ((escapeCSVValue s).toList ++ rest) = (s.toList, rest) := by
  by_cases he :
      (s.toList.contains ',' || s.toList.contains '"' || s.toList.contains '\n') = true
  · have hesc : escapeCSVValue s = "\"" ++ doubleQuotes s ++ "\"" := by
      unfold escapeCSVValue
      rw [if_pos he]
    rw [hesc]
    have hform : ("\"" ++ doubleQuotes s ++ "\"").toList ++ rest
        = '"' :: (doubledChars s.toList ++ '"' :: rest) := by
      simp [toList_append, doubleQuotes, toList_mk, List.append_assoc]
    rw [hform]
    have hq : rest.head? ≠ some '"' := by
      rcases hrest with h | h | h <;> simp [h]
    rw [show parseCell ('"' :: (doubledChars s.toList ++ '"' :: rest))
        = parseQuotedAux [] (doubledChars s.toList ++ '"' :: rest) from by
      simp [parseCell]]
    rw [parseQuotedAux_spec s.toList [] rest hq]
    simp
  · have hesc : escapeCSVValue s = s := by
      unfold escapeCSVValue
      rw [if_neg he]
    rw [hesc]
    simp only [Bool.or_eq_true, not_or] at he
    have hmc : ',' ∉ s.toList := fun hm => he.1.1 (List.elem_iff.mpr hm)
    have hmq : '"' ∉ s.toList := fun hm => he.1.2 (List.elem_iff.mpr hm)
    have hmn : '\n' ∉ s.toList := fun hm => he.2 (List.elem_iff.mpr hm)
    cases hs : s.toList with
    | nil =>
      rw [List.nil_append]
      cases rest with
      | nil => simp [parseCell]
      | cons r rest' =>
        have hr : r = ',' ∨ r = '\n' := by
          rcases hrest with h | h | h
          · simp at h
          · simp at h
            exact Or.inl h
          · simp at h
            exact Or.inr h
        rcases hr with hr | hr <;> subst hr <;> simp [parseCell, parseBareAux]
    | cons c cs =>
      have hcmem : ∀ d ∈ c :: cs, d ∈ s.toList := by
        intro d hd
        rw [hs]
        exact hd
      have hcq : ¬c = '"' := fun hq =>
        hmq (hq ▸ hcmem c (List.mem_cons_self _ _))
      show parseCell (c :: (cs ++ rest)) = (c :: cs, rest)
      rw [show parseCell (c :: (cs ++ rest)) = parseBareAux [] (c :: (cs ++ rest)) from by
        simp [parseCell, hcq]]
      rw [← List.cons_append]
      rw [parseBareAux_spec (c :: cs) [] rest
        (fun d hd => ⟨fun hdc => hmc (hdc ▸ hcmem d hd), fun hdn => hmn (hdn ▸ hcmem d hd)⟩)
        hrest]
      simp

theorem parseRecords_print_nl (cs : List String) : ∀ (c : String) (fuel : Nat)
    (tail : List Char),
    parseRecords ((c :: cs).length + fuel) ((printRecord (c :: cs)).toList ++ '\n' :: tail)
      = (c :: cs) :: parseRecords fuel tail := by
  induction cs with
  | nil =>
    intro c fuel tail
    rw [show ([c] : List String).length + fuel = fuel + 1 from by simp [Nat.add_comm]]
    have hcell := parseCell_spec c ('\n' :: tail) (Or.inr (Or.inr rfl))
    rw [show printRecord [c] = escapeCSVValue c from rfl]
    simp only [parseRecords, hcell]
    rw [mk_toList]
  | cons c2 cs ih =>
    intro c fuel tail
    rw [show (c :: c2 :: cs).length + fuel = (((c2 :: cs).length + fuel)) + 1 from by
      simp [List.length_cons]
      omega]
    have hpr : (printRecord (c :: c2 :: cs)).toList ++ '\n' :: tail
        = (escapeCSVValue c).toList
          ++ ',' :: ((printRecord (c2 :: cs)).toList ++ '\n' :: tail) := by
      rw [show printRecord (c :: c2 :: cs)
          = escapeCSVValue c ++ "," ++ printRecord (c2 :: cs) from rfl]
      simp [toList_append, List.append_assoc]
    rw [hpr]
    have hcell := parseCell_spec c
      (',' :: ((printRecord (c2 :: cs)).toList ++ '\n' :: tail)) (Or.inr (Or.inl rfl))
    simp only [parseRecords, hcell]
    rw [ih c2 fuel tail]
    simp [mk_toList]

theorem parseRecords_print_end (cs : List String) : ∀ (c : String) (fuel : Nat),
    parseRecords ((c :: cs).length + fuel) ((printRecord (c :: cs)).toList) = [c :: cs] := by
  induction cs with
  | nil =>
    intro c fuel
    rw [show ([c] : List String).length + fuel = fuel + 1 from by simp [Nat.add_comm]]
    have hcell : parseCell ((escapeCSVValue c).toList) = (c.toList, []) := by
      have h := parseCell_spec c [] (Or.inl rfl)
      simpa using h
    rw [show printRecord [c] = escapeCSVValue c from rfl]
    simp only [parseRecords, hcell]
    rw [mk_toList]
  | cons c2 cs ih =>
    intro c fuel
    rw [show (c :: c2 :: cs).length + fuel = (((c2 :: cs).length + fuel)) + 1 from by
      simp [List.length_cons]
      omega]
    have hpr : (printRecord (c :: c2 :: cs)).toList
        = (escapeCSVValue c).toList ++ ',' :: (printRecord (c2 :: cs)).toList := by
      rw [show printRecord (c :: c2 :: cs)
          = escapeCSVValue c ++ "," ++ printRecord (c2 :: cs) from rfl]
      simp [toList_append, List.append_assoc]
    rw [hpr]
    have hcell := parseCell_spec c (',' :: (printRecord (c2 :: cs)).toList)
      (Or.inr (Or.inl rfl))
    simp only [parseRecords, hcell]
    rw [ih c2 fuel]
    simp [mk_toList]

theorem parseRecords_printAll (records : List (List String)) :
    records ≠ [] → (∀ r ∈ records, r ≠ []) → ∀ extra : Nat,
    parseRecords (cellCount records + extra) ((printAll records).toList) = records := by
  induction records with
  | nil => intro h; exact absurd rfl h
  | cons r rs ih =>
    intro _ hall extra
    obtain ⟨c, cs, rfl⟩ : ∃ c cs, r = c :: cs := by
      cases r with
      | nil => exact absurd rfl (hall [] (List.mem_cons_self _ _))
      | cons c cs => exact ⟨c, cs, rfl⟩
    cases rs with
    | nil =>
      rw [show cellCount [c :: cs] + extra = (c :: cs).length + extra from by
        simp [cellCount]]
      rw [show printAll [c :: cs] = printRecord (c :: cs) from rfl]
      exact parseRecords_print_end cs c extra
    | cons r2 rs2 =>
      have hprint : (printAll ((c :: cs) :: r2 :: rs2)).toList
          = (printRecord (c :: cs)).toList ++ '\n' :: (printAll (r2 :: rs2)).toList := by
        rw [show printAll ((c :: cs) :: r2 :: rs2)
            = printRecord (c :: cs) ++ "\n" ++ printAll (r2 :: rs2) from rfl]
        simp [toList_append, List.append_assoc]
      have hcc : cellCount ((c :: cs) :: r2 :: rs2) + extra
          = (c :: cs).length + (cellCount (r2 :: rs2) + extra) := by
        simp [cellCount]
        omega
      rw [hprint, hcc, parseRecords_print_nl cs c (cellCount (r2 :: rs2) + extra)
        ((printAll (r2 :: rs2)).toList)]
      rw [ih (List.cons_ne_nil _ _) (fun x hx => hall x (List.mem_cons_of_mem _ hx)) extra]

theorem length_printRecord_ge (cells : List String) :
    cells.length ≤ (printRecord cells).toList.length + 1 := by
  induction cells with
  | nil => simp
  | cons c cs ih =>
    cases cs with
    | nil => simp
    | cons c2 cs2 =>
      rw [show printRecord (c :: c2 :: cs2)
          = escapeCSVValue c ++ "," ++ printRecord (c2 :: cs2) from rfl]
      simp only [toList_append, List.length_append, List.length_cons]
      simp only [List.length_cons] at ih ⊢
      have hone : (",".toList).length = 1 := rfl
      omega

theorem cellCount_le (records : List (List String)) :
    cellCount records ≤ (printAll records).toList.length + 1 := by
  induction records with
  | nil => simp [cellCount]
  | cons r rs ih =>
    cases rs with
    | nil =>
      have h1 := length_printRecord_ge r
      rw [show cellCount [r] = r.length from by simp [cellCount]]
      rw [show printAll [r] = printRecord r from rfl]
      exact h1
    | cons r2 rs2 =>
      have h1 := length_printRecord_ge r
      have hcc : cellCount (r :: r2 :: rs2) = r.length + cellCount (r2 :: rs2) := by
        simp [cellCount]
      have hlen : (printAll (r :: r2 :: rs2)).toList.length
          = (printRecord r).toList.length + 1 + (printAll (r2 :: rs2)).toList.length := by
        rw [show printAll (r :: r2 :: rs2)
            = printRecord r ++ "\n" ++ printAll (r2 :: rs2) from rfl]
        simp [toList_append]
        omega
      omega

theorem parseCSV_printAll (records : List (List String)) (hne : records ≠ [])
    (hall : ∀ r ∈ records, r ≠ []) :
    parseCSV (printAll records) = records := by
  unfold parseCSV
  obtain ⟨k, hk⟩ := Nat.le.dest (cellCount_le records)
  rw [show (printAll records).toList.length + 1 = cellCount records + k from hk.symm]
  exact parseRecords_printAll records hne hall k

theorem csvContent_eq_printAll (rows : List (List (String × String))) :
    csvContent rows = printAll (buildHeaders rows
      :: rows.map (fun r => (buildHeaders rows).map (fun h => (getKey r h).getD ""))) := by
  unfold csvContent printAll printRecord csvLine
  simp [List.map_map, Function.comp_def]

theorem setKey_ne_nil (row : List (String × String)) (k v : String) (h : row ≠ []) :
    setKey row k v ≠ [] := by
  unfold setKey
  split
  · simpa using h
  · simp

theorem applyMetadataItem_ne_nil (row : List (String × String)) (m : CustomMetadataItem)
    (h : row ≠ []) : applyMetadataItem row m ≠ [] := by
  cases hpn : m.propertyName with
  | none => simpa [applyMetadataItem, hpn] using h
  | some name =>
    by_cases hname : name = ""
    · simpa [applyMetadataItem, hpn, hname] using h
    · simp only [applyMetadataItem, hpn]
      rw [if_neg hname]
      exact setKey_ne_nil row name (metadataFieldValue m) h

theorem foldl_applyMetadataItem_ne_nil (l : List CustomMetadataItem) :
    ∀ row, row ≠ [] → l.foldl applyMetadataItem row ≠ [] := by
  induction l with
  | nil => intro row h; exact h
  | cons m ms ih => intro row h; exact ih _ (applyMetadataItem_ne_nil row m h)

theorem buildRow_ne_nil (a : FrontifyAsset) : buildRow a ≠ [] := by
  unfold buildRow
  exact foldl_applyMetadataItem_ne_nil _ _ (by unfold baseRow; exact List.cons_ne_nil _ _)

theorem length_le_addKeys (ks : List String) (acc : List String) :
    acc.length ≤ (addKeys acc ks).length := by
  rw [addKeys_eq]
  simp

theorem length_le_foldl_addKeys (rows : List (List (String × String))) :
    ∀ acc : List String,
    acc.length ≤ (rows.foldl (fun acc row => addKeys acc (objectKeys row)) acc).length := by
  induction rows with
  | nil => intro acc; exact Nat.le_refl _
  | cons r rs ih =>
    intro acc
    exact Nat.le_trans (length_le_addKeys (objectKeys r) acc) (ih _)

theorem buildHeaders_ne_nil (r : List (String × String)) (rs : List (List (String × String)))
    (hr : r ≠ []) : buildHeaders (r :: rs) ≠ [] := by
  have h1 : 1 ≤ (addKeys [] (objectKeys r)).length := by
    cases hrk : objectKeys r with
    | nil =>
      exfalso
      have hlen := objectKeys_length r
      rw [hrk] at hlen
      exact hr (List.length_eq_zero.mp hlen.symm)
    | cons k ks =>
      rw [addKeys_eq, filterNew_cons_not_mem [] k ks (by simp)]
      simp
  have h3 : 1 ≤ (buildHeaders (r :: rs)).length := by
    unfold buildHeaders
    rw [List.foldl_cons]
    exact Nat.le_trans h1 (length_le_foldl_addKeys rs _)
  intro hnil
  rw [hnil] at h3
  simp at h3

/-- Claim C3: for every row set and column schema produced by the exporter,
parsing the emitted CSV text with the quote-aware RFC-4180 reader recovers
exactly the original header names and the original cell strings, including
cells containing commas, double quotes and embedded newlines. -/
theorem spec_C3 (a : FrontifyAsset) (as : List FrontifyAsset) (name : String) :
    (exportToCSV (a :: as) name).map (fun out => parseCSV out.1)
      = Except.ok (buildHeaders (prepareAssetsForExport (a :: as))
          :: (prepareAssetsForExport (a :: as)).map
              (fun r => (buildHeaders (prepareAssetsForExport (a :: as))).map
                (fun h => (getKey r h).getD ""))) := by
  have hok : exportToCSV (a :: as) name
      = Except.ok (csvContent (prepareAssetsForExport (a :: as)), deriveFilename name) := by
    simp [exportToCSV, prepareAssetsForExport]
  rw [hok]
  simp only [Except.map]
  congr 1
  rw [csvContent_eq_printAll]
  have hhead : buildHeaders (prepareAssetsForExport (a :: as)) ≠ [] := by
    rw [show prepareAssetsForExport (a :: as) = buildRow a :: as.map buildRow from rfl]
    exact buildHeaders_ne_nil (buildRow a) (as.map buildRow) (buildRow_ne_nil a)
  apply parseCSV_printAll
  · exact List.cons_ne_nil _ _
  · intro r hr
    rcases List.mem_cons.mp hr with rfl | hr2
    · exact hhead
    · obtain ⟨row, _, rfl⟩ := List.mem_map.mp hr2
      exact fun hmnil => hhead (List.map_eq_nil_iff.mp hmnil)

end CollectionExporter
